import Mathlib

/-!
Verification of a sweep-line interval max-overlap program.

The program computes, for each meeting interval in a batch, the maximum
number of meetings simultaneously in progress at any instant of that
meeting's half-open span.  Coordinates are modelled by rationals; the
partial functions of the source (array indexing, unsigned-counter
decrement, input validation) are modelled with `Option`, `none` standing
for a runtime panic.
-/

abbrev Meeting : Type := ℚ × ℚ

/-- Tag of an endpoint event; `End` is declared before `Start`, and the derived
order of the source makes `End` sort before `Start` at equal positions. -/
inductive Cap : Type
  | End : Cap
  | Start : Cap
deriving DecidableEq

/-- Numeric rank of a `Cap`, encoding the derived order `End < Start`. -/
def capN : Cap → ℕ
  | Cap.End => 0
  | Cap.Start => 1

/-- Comparator used by the sort in `create_breakpoints`:
position ascending, ties broken with `End` before `Start` (the source
compares positions, and on a tie compares the derived order of the tags). -/
def bpR (a b : ℚ × Cap) : Prop :=
  a.1 < b.1 ∨ (a.1 = b.1 ∧ capN a.2 ≤ capN b.2)

instance : DecidableRel bpR := fun a b => by
  unfold bpR; infer_instance

instance : IsTotal (ℚ × Cap) bpR where
  total a b := by
    rcases lt_trichotomy a.1 b.1 with h | h | h
    · exact Or.inl (Or.inl h)
    · rcases Nat.le_total (capN a.2) (capN b.2) with hc | hc
      · exact Or.inl (Or.inr ⟨h, hc⟩)
      · exact Or.inr (Or.inr ⟨h.symm, hc⟩)
    · exact Or.inr (Or.inl h)

instance : IsTrans (ℚ × Cap) bpR where
  trans a b c hab hbc := by
    rcases hab with h1 | ⟨h1, hc1⟩
    · rcases hbc with h2 | ⟨h2, _⟩
      · exact Or.inl (h1.trans h2)
      · exact Or.inl (h2 ▸ h1)
    · rcases hbc with h2 | ⟨h2, hc2⟩
      · exact Or.inl (h1 ▸ h2)
      · exact Or.inr ⟨h1.trans h2, hc1.trans hc2⟩

/-- Unsorted endpoint list: one `Start` event at each meeting's start and one
`End` event at each meeting's end, in input order. -/
def rawEndpoints (meetings : List Meeting) : List (ℚ × Cap) :=
  meetings.flatMap (fun m => [(m.1, Cap.Start), (m.2, Cap.End)])

/-- Sorted endpoint events of a batch of meetings (the source's
`create_breakpoints`: push both endpoints of every meeting, then stable-sort
by position with `End` before `Start` at equal positions; a stable sort's
output is uniquely determined by the comparator, so the choice of stable
sorting algorithm is immaterial). -/
def create_breakpoints (meetings : List Meeting) : List (ℚ × Cap) :=
  (rawEndpoints meetings).insertionSort bpR

/-- Running occupancy scan with current counter `curr`; the counter is an
unsigned machine integer in the source, so decrementing zero is a panic,
modelled by `none`. -/
def stackCountGo (curr : ℕ) : List (ℚ × Cap) → Option (List ℕ)
  | [] => some []
  | b :: bs =>
    if b.2 = Cap.Start then
      match stackCountGo (curr + 1) bs with
      | none => none
      | some rest => some ((curr + 1) :: rest)
    else
      if curr = 0 then none
      else
        match stackCountGo (curr - 1) bs with
        | none => none
        | some rest => some ((curr - 1) :: rest)

/-- Occupancy sequence of an event list (the source's `create_stack_count`):
start from 0, increment on `Start`, decrement on `End`, record after each
update. -/
def create_stack_count (breakpoints : List (ℚ × Cap)) : Option (List ℕ) :=
  stackCountGo 0 breakpoints

/-- Loop condition of the first loop of `slice_index`: keep advancing while
the event is strictly before the meeting's start, or is an `End` exactly at
the meeting's start. -/
def skipCond (s : ℚ) (b : ℚ × Cap) : Bool :=
  decide (b.1 < s ∨ (b.1 = s ∧ b.2 = Cap.End))

/-- First loop of `slice_index`: advance from index 0 while `skipCond` holds.
The source indexes the array unguardedly, so running off the end is a panic,
modelled by `none`. -/
def findStart (s : ℚ) : List (ℚ × Cap) → Option ℕ
  | [] => none
  | b :: bs =>
    if skipCond s b then
      match findStart s bs with
      | none => none
      | some i => some (i + 1)
    else some 0

/-- Structural-recursion worker for `findEnd`; `fuel` bounds the remaining
iterations and is always instantiated to `n2 - i`, so the `fuel = 0` branch
coincides with the loop guard `i < n2` failing. -/
def findEndAux (e : ℚ) (bps : List (ℚ × Cap)) (n2 : ℕ) :
    ℕ → ℕ → Option ℕ
  | 0, i => some i
  | fuel + 1, i =>
    if i < n2 then
      match bps[i]? with
      | none => none
      | some b => if b.1 < e then findEndAux e bps n2 fuel (i + 1) else some i
    else some i

/-- Second loop of `slice_index`: from index `i`, advance while `i < n2` and
the event at `i` is strictly before the meeting's end.  The array access is
performed only under the guard `i < n2`; an access past the actual list is a
panic, modelled by `none`. -/
def findEnd (e : ℚ) (bps : List (ℚ × Cap)) (n2 : ℕ) (i : ℕ) : Option ℕ :=
  findEndAux e bps n2 (n2 - i) i

/-- The source's `slice_index`: locate the half-open index range of events
relevant to one meeting (second component is the final loop index plus 1). -/
def slice_index (meeting : Meeting) (breakpoints : List (ℚ × Cap))
    (num_meetings : ℕ) : Option (ℕ × ℕ) :=
  match findStart meeting.1 breakpoints with
  | none => none
  | some start_index =>
    match findEnd meeting.2 breakpoints (2 * num_meetings) start_index with
    | none => none
    | some end_index => some (start_index, end_index + 1)

/-- Structural-recursion worker for `maxRange`; `fuel` bounds the remaining
iterations and is always instantiated to `j - i`, so the `fuel = 0` branch
coincides with the loop guard `i < j` failing. -/
def maxRangeAux (sc : List ℕ) (j : ℕ) : ℕ → ℕ → ℕ → Option ℕ
  | 0, _, acc => some acc
  | fuel + 1, i, acc =>
    if i < j then
      match sc[i]? with
      | none => none
      | some v => maxRangeAux sc j fuel (i + 1) (max v acc)
    else some acc

/-- Max-reduction loop of `solve_max_overlap`: fold `max` of `sc` over indices
`[i, j)` starting from `acc`; an out-of-bounds access is a panic (`none`). -/
def maxRange (sc : List ℕ) (i j acc : ℕ) : Option ℕ :=
  maxRangeAux sc j (j - i) i acc

/-- Per-meeting body of the main loop of `solve_max_overlap`: locate the index
range, read the occupancy at `start_index`, then max-reduce over the range. -/
def meetingMax (bps : List (ℚ × Cap)) (sc : List ℕ) (n : ℕ) (m : Meeting) :
    Option ℕ :=
  match slice_index m bps n with
  | none => none
  | some (si, ei) =>
    match sc[si]? with
    | none => none
    | some first => maxRange sc si ei first

/-- Main loop of `solve_max_overlap` over the meetings, collecting results in
input order. -/
def solveGo (bps : List (ℚ × Cap)) (sc : List ℕ) (n : ℕ) :
    List Meeting → Option (List ℕ)
  | [] => some []
  | m :: rest =>
    match meetingMax bps sc n m with
    | none => none
    | some v =>
      match solveGo bps sc n rest with
      | none => none
      | some vs => some (v :: vs)

/-- Validation of the source's `is_valid`: every meeting must have
start strictly before end (the source asserts this, a panic otherwise). -/
def is_valid (meetings : List Meeting) : Bool :=
  meetings.all (fun m => decide (m.1 < m.2))

/-- The source's `solve_max_overlap`: validate, build sorted breakpoints and
the occupancy sequence, then compute each meeting's maximum occupancy over
its located index range.  `none` models a panic (failed validation, counter
underflow, or out-of-bounds access). -/
def solve_max_overlap (meetings : List Meeting) : Option (List ℕ) :=
  if is_valid meetings then
    match create_stack_count (create_breakpoints meetings) with
    | none => none
    | some sc => solveGo (create_breakpoints meetings) sc meetings.length meetings
  else none

/-- Number of meetings of the batch in progress at instant `t`, with half-open
semantics: meeting `m` is in progress at `t` when `m.1 ≤ t < m.2`. -/
def countAt (meetings : List Meeting) (t : ℚ) : ℕ :=
  meetings.countP (fun m => decide (m.1 ≤ t ∧ t < m.2))

/-! ### Helper lemmas about list indexing -/

/-- Default event used with `List.getD`. -/
def bp0 : ℚ × Cap := (0, Cap.End)

theorem getD_eq_getElem_of_lt {α : Type} (L : List α) (d : α) {i : ℕ}
    (h : i < L.length) : L.getD i d = L[i] := by
  simp [List.getD_eq_getElem?_getD, List.getElem?_eq_getElem h]

theorem getD_mem_of_lt {α : Type} (L : List α) (d : α) {i : ℕ}
    (h : i < L.length) : L.getD i d ∈ L := by
  rw [getD_eq_getElem_of_lt L d h]; exact List.getElem_mem h

theorem getD_mem_take {α : Type} (L : List α) (d : α) {i j : ℕ}
    (hij : i < j) (hi : i < L.length) : L.getD i d ∈ L.take j := by
  have hlen : i < (L.take j).length := by
    simp only [List.length_take]; omega
  have : (L.take j).getD i d = L.getD i d := by
    simp [List.getD_eq_getElem?_getD, List.getElem?_take_of_lt hij]
  rw [← this]
  exact getD_mem_of_lt _ _ hlen

theorem mem_drop_getD {α : Type} (L : List α) (d : α) {k : ℕ}
    (hk : k < L.length) : L.getD k d ∈ L.drop k := by
  have hlen : 0 < (L.drop k).length := by
    simp only [List.length_drop]; omega
  have : (L.drop k).getD 0 d = L.getD k d := by
    simp [List.getD_eq_getElem?_getD, List.getElem?_drop]
  rw [← this]
  exact getD_mem_of_lt _ _ hlen

/-! ### Counting events and meetings -/

/-- Number of `Start` events of an event list. -/
def countS (l : List (ℚ × Cap)) : ℕ := l.countP (fun b => decide (b.2 = Cap.Start))

/-- Number of `End` events of an event list. -/
def countE (l : List (ℚ × Cap)) : ℕ := l.countP (fun b => decide (b.2 = Cap.End))

/-- Number of meetings starting at or before `t`. -/
def sLE (ms : List Meeting) (t : ℚ) : ℕ := ms.countP (fun m => decide (m.1 ≤ t))

/-- Number of meetings starting strictly before `t`. -/
def sLT (ms : List Meeting) (t : ℚ) : ℕ := ms.countP (fun m => decide (m.1 < t))

/-- Number of meetings ending at or before `t`. -/
def eLE (ms : List Meeting) (t : ℚ) : ℕ := ms.countP (fun m => decide (m.2 ≤ t))

/-- Number of meetings ending strictly before `t`. -/
def eLT (ms : List Meeting) (t : ℚ) : ℕ := ms.countP (fun m => decide (m.2 < t))

theorem countP_raw (f : (ℚ × Cap) → Bool) (ms : List Meeting) :
    (rawEndpoints ms).countP f
      = ms.countP (fun m => f (m.1, Cap.Start)) + ms.countP (fun m => f (m.2, Cap.End)) := by
  induction ms with
  | nil => simp [rawEndpoints]
  | cons m ms ih =>
    simp only [rawEndpoints, List.flatMap_cons, List.cons_append, List.nil_append,
      List.countP_cons] at *
    rw [ih]
    omega

theorem breakpoints_perm (ms : List Meeting) :
    (create_breakpoints ms).Perm (rawEndpoints ms) :=
  List.perm_insertionSort bpR (rawEndpoints ms)

theorem breakpoints_sorted (ms : List Meeting) :
    List.Sorted bpR (create_breakpoints ms) :=
  List.sorted_insertionSort bpR (rawEndpoints ms)

theorem length_rawEndpoints (ms : List Meeting) :
    (rawEndpoints ms).length = 2 * ms.length := by
  induction ms with
  | nil => simp [rawEndpoints]
  | cons m ms ih =>
    simp only [rawEndpoints, List.flatMap_cons, List.length_append, List.length_cons] at *
    simp [ih]
    omega

theorem length_breakpoints (ms : List Meeting) :
    (create_breakpoints ms).length = 2 * ms.length := by
  rw [(breakpoints_perm ms).length_eq, length_rawEndpoints]

theorem countP_breakpoints (f : (ℚ × Cap) → Bool) (ms : List Meeting) :
    (create_breakpoints ms).countP f
      = ms.countP (fun m => f (m.1, Cap.Start)) + ms.countP (fun m => f (m.2, Cap.End)) := by
  rw [(breakpoints_perm ms).countP_eq, countP_raw]

theorem countP_bp_startLE (ms : List Meeting) (t : ℚ) :
    (create_breakpoints ms).countP (fun b => decide (b.2 = Cap.Start ∧ b.1 ≤ t))
      = sLE ms t := by
  rw [countP_breakpoints]
  simp [sLE]

theorem countP_bp_startLT (ms : List Meeting) (t : ℚ) :
    (create_breakpoints ms).countP (fun b => decide (b.2 = Cap.Start ∧ b.1 < t))
      = sLT ms t := by
  rw [countP_breakpoints]
  simp [sLT]

theorem countP_bp_endLE (ms : List Meeting) (t : ℚ) :
    (create_breakpoints ms).countP (fun b => decide (b.2 = Cap.End ∧ b.1 ≤ t))
      = eLE ms t := by
  rw [countP_breakpoints]
  simp [eLE]

theorem countP_bp_endLT (ms : List Meeting) (t : ℚ) :
    (create_breakpoints ms).countP (fun b => decide (b.2 = Cap.End ∧ b.1 < t))
      = eLT ms t := by
  rw [countP_breakpoints]
  simp [eLT]

theorem countS_breakpoints (ms : List Meeting) :
    countS (create_breakpoints ms) = ms.length := by
  rw [countS, countP_breakpoints]
  simp

theorem countE_breakpoints (ms : List Meeting) :
    countE (create_breakpoints ms) = ms.length := by
  rw [countE, countP_breakpoints]
  simp

/-- Pointwise partition of start counts at instant `t`: a meeting starting at
or before `t` is either still in progress at `t` or already over. -/
theorem countAt_add_eLE (ms : List Meeting) (t : ℚ)
    (hval : ∀ m ∈ ms, m.1 < m.2) :
    countAt ms t + eLE ms t = sLE ms t := by
  induction ms with
  | nil => simp [countAt, eLE, sLE]
  | cons m ms ih =>
    have hm : m.1 < m.2 := hval m (List.mem_cons_self m ms)
    have ih' := ih (fun x hx => hval x (List.mem_cons_of_mem m hx))
    simp only [countAt, eLE, sLE, List.countP_cons, Bool.decide_and] at *
    by_cases h2 : m.2 ≤ t
    · have h1 : m.1 ≤ t := le_of_lt (lt_of_lt_of_le hm h2)
      have hn : ¬ t < m.2 := not_lt.mpr h2
      simp [h1, h2, hn]
      omega
    · by_cases h1 : m.1 ≤ t
      · have ht : t < m.2 := lt_of_not_le h2
        simp [h1, h2, ht]
        omega
      · simp [h1, h2]
        omega

/-- With valid meetings, ends at or before `p` are fewer than starts strictly
before `p`. -/
theorem eLE_le_sLT (ms : List Meeting) (p : ℚ)
    (hval : ∀ m ∈ ms, m.1 < m.2) : eLE ms p ≤ sLT ms p := by
  apply List.countP_mono_left
  intro m hm h
  have := hval m hm
  simp only [decide_eq_true_eq] at *
  exact lt_of_lt_of_le this h

/-! ### Sorted prefixes of the breakpoint list -/

theorem countP_eq_countP_take_of_drop {α : Type} (L : List α) (f : α → Bool) (k : ℕ)
    (h : ∀ e ∈ L.drop k, ¬ f e) : L.countP f = (L.take k).countP f := by
  conv_lhs => rw [← List.take_append_drop k L]
  rw [List.countP_append, List.countP_eq_zero.mpr h]
  omega

theorem countP_take_le {α : Type} (L : List α) (f : α → Bool) (k : ℕ) :
    (L.take k).countP f ≤ L.countP f :=
  List.Sublist.countP_le f (List.take_sublist k L)

/-- Every element of a sorted prefix `take (k+1)` is related to the element at
index `k` or equal to it. -/
theorem rel_of_mem_take_succ {L : List (ℚ × Cap)} (hs : List.Sorted bpR L)
    {k : ℕ} (hk : k < L.length) {e : ℚ × Cap} (he : e ∈ L.take (k + 1)) :
    bpR e (L.getD k bp0) ∨ e = L.getD k bp0 := by
  rw [List.take_succ] at he
  rcases List.mem_append.mp he with h | h
  · exact Or.inl (hs.rel_of_mem_take_of_mem_drop h (mem_drop_getD L bp0 hk))
  · right
    rw [List.getElem?_eq_getElem hk] at h
    simp only [Option.toList_some, List.mem_singleton] at h
    rw [getD_eq_getElem_of_lt L bp0 hk]
    exact h

/-- The element at index `k` of a sorted list is related to every element of
the suffix `drop (k+1)`. -/
theorem rel_of_mem_drop_succ {L : List (ℚ × Cap)} (hs : List.Sorted bpR L)
    {k : ℕ} (hk : k < L.length) {e : ℚ × Cap} (he : e ∈ L.drop (k + 1)) :
    bpR (L.getD k bp0) e :=
  hs.rel_of_mem_take_of_mem_drop (getD_mem_take L bp0 (Nat.lt_succ_self k) hk) he

/-- Prefix balance of the sorted breakpoint list of a valid batch: every
prefix contains at least as many `Start` events as `End` events. -/
theorem prefix_balance (ms : List Meeting) (hval : ∀ m ∈ ms, m.1 < m.2)
    (k : ℕ) :
    countE ((create_breakpoints ms).take k) ≤ countS ((create_breakpoints ms).take k) := by
  by_cases hk : (create_breakpoints ms).length ≤ k
  · rw [List.take_of_length_le hk]
    rw [countE_breakpoints, countS_breakpoints]
  · push_neg at hk
    cases k with
    | zero => simp [countE, countS]
    | succ k' =>
      have hk' : k' < (create_breakpoints ms).length := lt_of_le_of_lt (Nat.le_succ k') hk
      have hsort := breakpoints_sorted ms
      have h1 : countE ((create_breakpoints ms).take (k' + 1))
          ≤ eLE ms ((create_breakpoints ms).getD k' bp0).1 := by
        have hcg : countE ((create_breakpoints ms).take (k' + 1))
            = ((create_breakpoints ms).take (k' + 1)).countP
              (fun e => decide (e.2 = Cap.End ∧
                e.1 ≤ ((create_breakpoints ms).getD k' bp0).1)) := by
          apply List.countP_congr
          intro e he
          simp only [decide_eq_true_eq]
          constructor
          · intro hE
            refine ⟨hE, ?_⟩
            rcases rel_of_mem_take_succ hsort hk' he with hrel | hEq
            · rcases hrel with hlt | ⟨hEq', _⟩
              · exact le_of_lt hlt
              · exact le_of_eq hEq'
            · rw [hEq]
          · exact fun h => h.1
        rw [hcg, ← countP_bp_endLE ms ((create_breakpoints ms).getD k' bp0).1]
        exact countP_take_le _ _ _
      have h2 : eLE ms ((create_breakpoints ms).getD k' bp0).1
          ≤ sLT ms ((create_breakpoints ms).getD k' bp0).1 :=
        eLE_le_sLT ms _ hval
      have h3 : sLT ms ((create_breakpoints ms).getD k' bp0).1
          ≤ countS ((create_breakpoints ms).take (k' + 1)) := by
        rw [← countP_bp_startLT ms ((create_breakpoints ms).getD k' bp0).1]
        rw [countP_eq_countP_take_of_drop (create_breakpoints ms) _ (k' + 1) ?hdrop]
        case hdrop =>
          intro e he hfe
          simp only [decide_eq_true_eq] at hfe
          have hrel := rel_of_mem_drop_succ hsort hk' he
          rcases hrel with hlt | ⟨hEq, _⟩
          · exact absurd (hlt.trans hfe.2) (lt_irrefl _)
          · exact absurd (hEq ▸ hfe.2) (lt_irrefl _)
        apply List.countP_mono_left
        intro e _ hfe
        simp only [decide_eq_true_eq] at hfe ⊢
        exact hfe.1
      exact le_trans h1 (le_trans h2 h3)

/-! ### Specification of the occupancy scan -/

theorem cap_eq_end_of_ne_start {c : Cap} (h : ¬ c = Cap.Start) : c = Cap.End := by
  cases c
  · rfl
  · exact absurd rfl h

theorem cap_eq_start_of_ne_end {c : Cap} (h : ¬ c = Cap.End) : c = Cap.Start := by
  cases c
  · exact absurd rfl h
  · rfl

theorem countS_cons (b : ℚ × Cap) (l : List (ℚ × Cap)) :
    countS (b :: l) = countS l + (if b.2 = Cap.Start then 1 else 0) := by
  simp [countS, List.countP_cons]

theorem countE_cons (b : ℚ × Cap) (l : List (ℚ × Cap)) :
    countE (b :: l) = countE l + (if b.2 = Cap.End then 1 else 0) := by
  simp [countE, List.countP_cons]

theorem stackCountGo_spec (l : List (ℚ × Cap)) (curr : ℕ)
    (h : ∀ k, k ≤ l.length → countE (l.take k) ≤ curr + countS (l.take k)) :
    ∃ sc, stackCountGo curr l = some sc ∧ sc.length = l.length ∧
      ∀ k, k < l.length →
        sc.getD k 0 + countE (l.take (k + 1)) = curr + countS (l.take (k + 1)) := by
  induction l generalizing curr with
  | nil =>
    exact ⟨[], rfl, rfl, fun k hk => absurd hk (Nat.not_lt_zero k)⟩
  | cons b bs ih =>
    by_cases hb : b.2 = Cap.Start
    · have hrec : ∀ k, k ≤ bs.length →
          countE (bs.take k) ≤ (curr + 1) + countS (bs.take k) := by
        intro k hk
        have hk1 := h (k + 1) (by simp [List.length_cons]; omega)
        rw [List.take_succ_cons, countE_cons, countS_cons] at hk1
        simp [hb] at hk1
        omega
      obtain ⟨sc, hsc, hlen, hval⟩ := ih (curr + 1) hrec
      refine ⟨(curr + 1) :: sc, ?_, by simp [hlen], ?_⟩
      · simp [stackCountGo, hb, hsc]
      · intro k hk
        cases k with
        | zero =>
          simp only [List.getD_cons_zero, List.take_succ_cons, List.take_zero,
            countE_cons, countS_cons]
          simp [hb, countE, countS]
        | succ k' =>
          have hk' : k' < bs.length := by simp [List.length_cons] at hk; omega
          have hv := hval k' hk'
          simp only [List.getD_eq_getElem?_getD] at hv
          simp only [List.getD_cons_succ, List.take_succ_cons, countE_cons, countS_cons]
          simp [hb]
          omega
    · have hbe : b.2 = Cap.End := cap_eq_end_of_ne_start hb
      have hpos : 1 ≤ curr := by
        have h1 := h 1 (by simp [List.length_cons])
        rw [List.take_succ_cons, List.take_zero, countE_cons, countS_cons] at h1
        simp [hbe, countE, countS] at h1
        omega
      have hrec : ∀ k, k ≤ bs.length →
          countE (bs.take k) ≤ (curr - 1) + countS (bs.take k) := by
        intro k hk
        have hk1 := h (k + 1) (by simp [List.length_cons]; omega)
        rw [List.take_succ_cons, countE_cons, countS_cons] at hk1
        simp [hbe, hb] at hk1
        omega
      obtain ⟨sc, hsc, hlen, hval⟩ := ih (curr - 1) hrec
      refine ⟨(curr - 1) :: sc, ?_, by simp [hlen], ?_⟩
      · have hcz : ¬ curr = 0 := by omega
        simp [stackCountGo, hb, hcz, hsc]
      · intro k hk
        cases k with
        | zero =>
          simp only [List.getD_cons_zero, List.take_succ_cons, List.take_zero,
            countE_cons, countS_cons]
          simp [hbe, hb, countE, countS]
          omega
        | succ k' =>
          have hk' : k' < bs.length := by simp [List.length_cons] at hk; omega
          have hv := hval k' hk'
          simp only [List.getD_eq_getElem?_getD] at hv
          simp only [List.getD_cons_succ, List.take_succ_cons, countE_cons, countS_cons]
          simp [hbe, hb]
          omega

/-! ### Specification of the two loops of `slice_index` -/

theorem findStart_spec (s : ℚ) (L : List (ℚ × Cap))
    (hex : ∃ b ∈ L, skipCond s b = false) :
    ∃ i, findStart s L = some i ∧ i < L.length ∧
      skipCond s (L.getD i bp0) = false ∧
      ∀ k, k < i → skipCond s (L.getD k bp0) = true := by
  induction L with
  | nil =>
    rcases hex with ⟨b, hb, _⟩
    exact absurd hb (List.not_mem_nil b)
  | cons b bs ih =>
    by_cases hb : skipCond s b = true
    · have hex' : ∃ b' ∈ bs, skipCond s b' = false := by
        rcases hex with ⟨b', hb', hfb⟩
        rcases List.mem_cons.mp hb' with rfl | hmem
        · rw [hb] at hfb; exact absurd hfb (by simp)
        · exact ⟨b', hmem, hfb⟩
      obtain ⟨i, hfs, hlt, hcond, hall⟩ := ih hex'
      refine ⟨i + 1, ?_, by simp [List.length_cons]; omega, ?_, ?_⟩
      · simp [findStart, hb, hfs]
      · simpa [List.getD_cons_succ] using hcond
      · intro k hk
        cases k with
        | zero => simpa [List.getD_cons_zero] using hb
        | succ k' =>
          rw [List.getD_cons_succ]
          exact hall k' (by omega)
    · have hbf : skipCond s b = false := by
        revert hb; cases skipCond s b <;> simp
      refine ⟨0, ?_, by simp [List.length_cons], ?_, fun k hk => absurd hk (Nat.not_lt_zero k)⟩
      · simp [findStart, hbf]
      · simpa [List.getD_cons_zero] using hbf

theorem findEndAux_spec (e : ℚ) (L : List (ℚ × Cap)) (n2 : ℕ)
    (hn2 : L.length = n2) :
    ∀ fuel i, fuel = n2 - i →
    (∃ j, i ≤ j ∧ j < n2 ∧ ¬ (L.getD j bp0).1 < e) →
    ∃ j, findEndAux e L n2 fuel i = some j ∧ i ≤ j ∧ j < n2 ∧
      ¬ (L.getD j bp0).1 < e ∧ ∀ k, i ≤ k → k < j → (L.getD k bp0).1 < e := by
  intro fuel
  induction fuel with
  | zero =>
    intro i hfuel hex
    rcases hex with ⟨j, hij, hjn, _⟩
    omega
  | succ fuel ih =>
    intro i hfuel hex
    have hin2 : i < n2 := by omega
    have hiL : i < L.length := by omega
    have hgd : L.getD i bp0 = L[i] := getD_eq_getElem_of_lt L bp0 hiL
    by_cases hlt : L[i].1 < e
    · have hex' : ∃ j, i + 1 ≤ j ∧ j < n2 ∧ ¬ (L.getD j bp0).1 < e := by
        rcases hex with ⟨j, hij, hjn, hj⟩
        have hne : j ≠ i := by
          rintro rfl
          rw [hgd] at hj
          exact hj hlt
        exact ⟨j, by omega, hjn, hj⟩
      obtain ⟨j, hrec, h1, h2, h3, h4⟩ := ih (i + 1) (by omega) hex'
      refine ⟨j, ?_, by omega, h2, h3, ?_⟩
      · simp only [findEndAux, if_pos hin2, List.getElem?_eq_getElem hiL]
        simp [hlt, hrec]
      · intro k hk1 hk2
        rcases Nat.eq_or_lt_of_le hk1 with rfl | hk1'
        · rw [hgd]; exact hlt
        · exact h4 k hk1' hk2
    · refine ⟨i, ?_, le_refl i, hin2, by rw [hgd]; exact hlt,
        fun k h1 h2 => absurd (lt_of_le_of_lt h1 h2) (lt_irrefl i)⟩
      simp only [findEndAux, if_pos hin2, List.getElem?_eq_getElem hiL]
      simp [hlt]

theorem findEnd_spec (e : ℚ) (L : List (ℚ × Cap)) (n2 : ℕ) (i : ℕ)
    (hn2 : L.length = n2)
    (hex : ∃ j, i ≤ j ∧ j < n2 ∧ ¬ (L.getD j bp0).1 < e) :
    ∃ j, findEnd e L n2 i = some j ∧ i ≤ j ∧ j < n2 ∧
      ¬ (L.getD j bp0).1 < e ∧ ∀ k, i ≤ k → k < j → (L.getD k bp0).1 < e :=
  findEndAux_spec e L n2 hn2 (n2 - i) i rfl hex

/-! ### Specification of the max-reduction loop -/

theorem maxRangeAux_spec (sc : List ℕ) (j : ℕ) (hj : j ≤ sc.length) :
    ∀ fuel i acc, fuel = j - i →
    ∃ v, maxRangeAux sc j fuel i acc = some v ∧ acc ≤ v ∧
      (∀ k, i ≤ k → k < j → sc.getD k 0 ≤ v) ∧
      (v = acc ∨ ∃ k, i ≤ k ∧ k < j ∧ v = sc.getD k 0) := by
  intro fuel
  induction fuel with
  | zero =>
    intro i acc hfuel
    refine ⟨acc, rfl, le_refl acc, ?_, Or.inl rfl⟩
    intro k h1 h2
    omega
  | succ fuel ih =>
    intro i acc hfuel
    have hij : i < j := by omega
    have hisc : i < sc.length := by omega
    have hgd : sc.getD i 0 = sc[i] := getD_eq_getElem_of_lt sc 0 hisc
    obtain ⟨v, hrec, hacc, hall, hcase⟩ := ih (i + 1) (max sc[i] acc) (by omega)
    refine ⟨v, ?_, le_trans (le_max_right _ _) hacc, ?_, ?_⟩
    · simp only [maxRangeAux, if_pos hij, List.getElem?_eq_getElem hisc]
      exact hrec
    · intro k h1 h2
      rcases Nat.eq_or_lt_of_le h1 with rfl | h1'
      · rw [hgd]
        exact le_trans (le_max_left _ _) hacc
      · exact hall k h1' h2
    · rcases hcase with hv | ⟨k, hk1, hk2, hv⟩
      · rcases Nat.le_total sc[i] acc with hle | hle
        · exact Or.inl (hv.trans (Nat.max_eq_right hle))
        · exact Or.inr ⟨i, le_refl i, hij, by rw [hgd, hv, Nat.max_eq_left hle]⟩
      · exact Or.inr ⟨k, by omega, hk2, hv⟩

theorem maxRange_spec (sc : List ℕ) (i j acc : ℕ) (hj : j ≤ sc.length) :
    ∃ v, maxRange sc i j acc = some v ∧ acc ≤ v ∧
      (∀ k, i ≤ k → k < j → sc.getD k 0 ≤ v) ∧
      (v = acc ∨ ∃ k, i ≤ k ∧ k < j ∧ v = sc.getD k 0) :=
  maxRangeAux_spec sc j hj (j - i) i acc rfl

/-! ### Locating a meeting's own events in the sorted breakpoint list -/

theorem getD_mem_drop {α : Type} (L : List α) (d : α) {k j : ℕ}
    (hkj : k ≤ j) (hj : j < L.length) : L.getD j d ∈ L.drop k := by
  have hlen : j - k < (L.drop k).length := by
    simp only [List.length_drop]; omega
  have heq : (L.drop k).getD (j - k) d = L.getD j d := by
    have : k + (j - k) = j := by omega
    simp [List.getD_eq_getElem?_getD, List.getElem?_drop, this]
  rw [← heq]
  exact getD_mem_of_lt _ _ hlen

theorem sorted_getD_rel {L : List (ℚ × Cap)} (hs : List.Sorted bpR L) {i j : ℕ}
    (hij : i < j) (hj : j < L.length) : bpR (L.getD i bp0) (L.getD j bp0) := by
  have hi : i < L.length := lt_trans hij hj
  rw [getD_eq_getElem_of_lt L bp0 hi, getD_eq_getElem_of_lt L bp0 hj]
  have := hs.rel_get_of_lt (a := ⟨i, hi⟩) (b := ⟨j, hj⟩) hij
  simpa using this

theorem own_start_mem (ms : List Meeting) (m : Meeting) (hm : m ∈ ms) :
    (m.1, Cap.Start) ∈ create_breakpoints ms := by
  rw [(breakpoints_perm ms).mem_iff]
  rw [rawEndpoints, List.mem_flatMap]
  exact ⟨m, hm, by simp⟩

theorem own_end_mem (ms : List Meeting) (m : Meeting) (hm : m ∈ ms) :
    (m.2, Cap.End) ∈ create_breakpoints ms := by
  rw [(breakpoints_perm ms).mem_iff]
  rw [rawEndpoints, List.mem_flatMap]
  exact ⟨m, hm, by simp⟩

theorem skipCond_own_start (s : ℚ) : skipCond s (s, Cap.Start) = false := by
  simp [skipCond]

theorem skipCond_own_end (m : Meeting) (h : m.1 < m.2) :
    skipCond m.1 (m.2, Cap.End) = false := by
  simp only [skipCond, decide_eq_false_iff_not]
  rintro (hc | ⟨hc, _⟩)
  · exact absurd (lt_trans h hc) (lt_irrefl _)
  · rw [hc] at h
    exact lt_irrefl _ h

/-- The negation of the skip condition says exactly what the specification
says of `start_index`: the event is strictly after the meeting's start, or at
the start and tagged `Start`. -/
theorem skipCond_false_iff (s : ℚ) (b : ℚ × Cap) :
    skipCond s b = false ↔ (s < b.1 ∨ (b.1 = s ∧ b.2 = Cap.Start)) := by
  simp only [skipCond, decide_eq_false_iff_not, not_or, not_and]
  constructor
  · rintro ⟨h1, h2⟩
    rcases lt_trichotomy s b.1 with h | h | h
    · exact Or.inl h
    · exact Or.inr ⟨h.symm, cap_eq_start_of_ne_end fun hE => h2 h.symm hE⟩
    · exact absurd h h1
  · rintro (h | ⟨h1, h2⟩)
    · exact ⟨fun hc => absurd (lt_trans h hc) (lt_irrefl _), fun he => by
        rw [he] at h
        exact absurd h (lt_irrefl _)⟩
    · refine ⟨fun hc => by rw [h1] at hc; exact absurd hc (lt_irrefl _), fun _ hE => ?_⟩
      rw [h2] at hE
      exact Cap.noConfusion hE

/-- Full description of `slice_index` on a valid batch: it succeeds, the event
located by the first loop is a `Start` at exactly the meeting's start, the
final index of the second loop is an `End` at exactly the meeting's end, and
the events strictly between are strictly before the meeting's end. -/
theorem slice_index_exists (ms : List Meeting) (hval : ∀ x ∈ ms, x.1 < x.2)
    (m : Meeting) (hm : m ∈ ms) :
    ∃ si j0, slice_index m (create_breakpoints ms) ms.length = some (si, j0 + 1) ∧
      si < (create_breakpoints ms).length ∧
      (create_breakpoints ms).getD si bp0 = (m.1, Cap.Start) ∧
      (∀ k, k < si → skipCond m.1 ((create_breakpoints ms).getD k bp0) = true) ∧
      si ≤ j0 ∧ j0 < (create_breakpoints ms).length ∧
      (create_breakpoints ms).getD j0 bp0 = (m.2, Cap.End) ∧
      (∀ k, si ≤ k → k < j0 → ((create_breakpoints ms).getD k bp0).1 < m.2) := by
  have hmm : m.1 < m.2 := hval m hm
  have hsort := breakpoints_sorted ms
  have hn2 : (create_breakpoints ms).length = 2 * ms.length := length_breakpoints ms
  -- first loop
  obtain ⟨si, hfs, hsi_lt, hsi_skip, hskip⟩ :=
    findStart_spec m.1 (create_breakpoints ms)
      ⟨(m.1, Cap.Start), own_start_mem ms m hm, skipCond_own_start m.1⟩
  -- index of the meeting's own start event
  obtain ⟨j1, hj1_lt, hj1⟩ := List.getElem_of_mem (own_start_mem ms m hm)
  have hj1d : (create_breakpoints ms).getD j1 bp0 = (m.1, Cap.Start) := by
    rw [getD_eq_getElem_of_lt _ _ hj1_lt, hj1]
  have hsij1 : si ≤ j1 := by
    by_contra hc
    push_neg at hc
    have := hskip j1 hc
    rw [hj1d, skipCond_own_start] at this
    exact Bool.noConfusion this
  -- the located event is the meeting's start
  have hsiev : (create_breakpoints ms).getD si bp0 = (m.1, Cap.Start) := by
    have hle : ((create_breakpoints ms).getD si bp0).1 ≤ m.1 := by
      rcases Nat.eq_or_lt_of_le hsij1 with rfl | hlt
      · rw [hj1d]
      · have := sorted_getD_rel hsort hlt hj1_lt
        rw [hj1d] at this
        rcases this with h | ⟨h, _⟩
        · exact le_of_lt h
        · exact le_of_eq h
    rw [skipCond_false_iff] at hsi_skip
    rcases hsi_skip with h | ⟨h1, h2⟩
    · exact absurd (lt_of_lt_of_le h hle) (lt_irrefl _)
    · exact Prod.ext_iff.mpr ⟨h1, h2⟩
  -- index of the meeting's own end event
  obtain ⟨j2, hj2_lt, hj2⟩ := List.getElem_of_mem (own_end_mem ms m hm)
  have hj2d : (create_breakpoints ms).getD j2 bp0 = (m.2, Cap.End) := by
    rw [getD_eq_getElem_of_lt _ _ hj2_lt, hj2]
  have hsij2 : si ≤ j2 := by
    by_contra hc
    push_neg at hc
    have := hskip j2 hc
    rw [hj2d, skipCond_own_end m hmm] at this
    exact Bool.noConfusion this
  -- second loop
  obtain ⟨j0, hfe, hsij0, hj0_n2, hj0_stop, hbetween⟩ :=
    findEnd_spec m.2 (create_breakpoints ms) (2 * ms.length) si hn2
      ⟨j2, hsij2, by omega, by rw [hj2d]; exact lt_irrefl m.2⟩
  have hj0_lt : j0 < (create_breakpoints ms).length := by omega
  -- j0 is at most the own end index
  have hj0j2 : j0 ≤ j2 := by
    by_contra hc
    push_neg at hc
    have := hbetween j2 hsij2 hc
    rw [hj2d] at this
    exact absurd this (lt_irrefl _)
  -- the stop event is the meeting's end
  have hj0ev : (create_breakpoints ms).getD j0 bp0 = (m.2, Cap.End) := by
    have hle : ((create_breakpoints ms).getD j0 bp0).1 ≤ m.2 := by
      rcases Nat.eq_or_lt_of_le hj0j2 with rfl | hlt
      · rw [hj2d]
      · have := sorted_getD_rel hsort hlt hj2_lt
        rw [hj2d] at this
        rcases this with h | ⟨h, _⟩
        · exact le_of_lt h
        · exact le_of_eq h
    have hge : m.2 ≤ ((create_breakpoints ms).getD j0 bp0).1 := not_lt.mp hj0_stop
    have hpos : ((create_breakpoints ms).getD j0 bp0).1 = m.2 := le_antisymm hle hge
    have hcap : ((create_breakpoints ms).getD j0 bp0).2 = Cap.End := by
      by_contra hc
      have hS : ((create_breakpoints ms).getD j0 bp0).2 = Cap.Start := by
        cases hcc : ((create_breakpoints ms).getD j0 bp0).2
        · exact absurd hcc hc
        · rfl
      have hne : j0 ≠ j2 := by
        rintro rfl
        rw [hj2d] at hS
        exact Cap.noConfusion hS
      have hlt : j0 < j2 := lt_of_le_of_ne hj0j2 hne
      have := sorted_getD_rel hsort hlt hj2_lt
      rw [hj2d] at this
      rcases this with h | ⟨h, hcn⟩
      · rw [hpos] at h
        exact absurd h (lt_irrefl _)
      · rw [hS] at hcn
        simp [capN] at hcn
    exact Prod.ext_iff.mpr ⟨hpos, hcap⟩
  refine ⟨si, j0, ?_, hsi_lt, hsiev, hskip, hsij0, hj0_lt, hj0ev, hbetween⟩
  simp [slice_index, hfs, hfe]

/-! ### Count bounds over sorted prefixes at a given index -/

theorem countS_take_start (ms : List Meeting) (k : ℕ)
    (hk : k < (create_breakpoints ms).length)
    (_hcap : ((create_breakpoints ms).getD k bp0).2 = Cap.Start) :
    countS ((create_breakpoints ms).take (k + 1))
      ≤ sLE ms ((create_breakpoints ms).getD k bp0).1 := by
  have hsort := breakpoints_sorted ms
  have hcg : countS ((create_breakpoints ms).take (k + 1))
      = ((create_breakpoints ms).take (k + 1)).countP
        (fun e => decide (e.2 = Cap.Start ∧
          e.1 ≤ ((create_breakpoints ms).getD k bp0).1)) := by
    apply List.countP_congr
    intro e he
    simp only [decide_eq_true_eq]
    constructor
    · intro hS
      refine ⟨hS, ?_⟩
      rcases rel_of_mem_take_succ hsort hk he with hrel | hEq
      · rcases hrel with h | ⟨h, _⟩
        · exact le_of_lt h
        · exact le_of_eq h
      · rw [hEq]
    · exact fun h => h.1
  rw [hcg, ← countP_bp_startLE ms ((create_breakpoints ms).getD k bp0).1]
  exact countP_take_le _ _ _

theorem countS_take_end (ms : List Meeting) (k : ℕ)
    (hk : k < (create_breakpoints ms).length)
    (hcap : ((create_breakpoints ms).getD k bp0).2 = Cap.End) :
    countS ((create_breakpoints ms).take (k + 1))
      ≤ sLT ms ((create_breakpoints ms).getD k bp0).1 := by
  have hsort := breakpoints_sorted ms
  have hcg : countS ((create_breakpoints ms).take (k + 1))
      = ((create_breakpoints ms).take (k + 1)).countP
        (fun e => decide (e.2 = Cap.Start ∧
          e.1 < ((create_breakpoints ms).getD k bp0).1)) := by
    apply List.countP_congr
    intro e he
    simp only [decide_eq_true_eq]
    constructor
    · intro hS
      refine ⟨hS, ?_⟩
      rcases rel_of_mem_take_succ hsort hk he with hrel | hEq
      · rcases hrel with h | ⟨h, hcn⟩
        · exact h
        · rw [hS, hcap] at hcn
          simp [capN] at hcn
      · rw [hEq] at hS
        rw [hcap] at hS
        exact Cap.noConfusion hS
    · exact fun h => h.1
  rw [hcg, ← countP_bp_startLT ms ((create_breakpoints ms).getD k bp0).1]
  exact countP_take_le _ _ _

theorem countE_take_start (ms : List Meeting) (k : ℕ)
    (hk : k < (create_breakpoints ms).length)
    (hcap : ((create_breakpoints ms).getD k bp0).2 = Cap.Start) :
    eLE ms ((create_breakpoints ms).getD k bp0).1
      ≤ countE ((create_breakpoints ms).take (k + 1)) := by
  have hsort := breakpoints_sorted ms
  rw [← countP_bp_endLE ms ((create_breakpoints ms).getD k bp0).1]
  rw [countP_eq_countP_take_of_drop (create_breakpoints ms) _ (k + 1) ?hdrop]
  case hdrop =>
    intro e he hfe
    simp only [decide_eq_true_eq] at hfe
    obtain ⟨hE, hle⟩ := hfe
    have hrel := rel_of_mem_drop_succ hsort hk he
    rcases hrel with h | ⟨h, hcn⟩
    · exact absurd (lt_of_lt_of_le h hle) (lt_irrefl _)
    · rw [hcap, hE] at hcn
      simp [capN] at hcn
  apply List.countP_mono_left
  intro e _ hfe
  simp only [decide_eq_true_eq] at hfe ⊢
  exact hfe.1

theorem countE_take_end (ms : List Meeting) (k : ℕ)
    (hk : k < (create_breakpoints ms).length)
    (_hcap : ((create_breakpoints ms).getD k bp0).2 = Cap.End) :
    eLT ms ((create_breakpoints ms).getD k bp0).1
      ≤ countE ((create_breakpoints ms).take (k + 1)) := by
  have hsort := breakpoints_sorted ms
  rw [← countP_bp_endLT ms ((create_breakpoints ms).getD k bp0).1]
  rw [countP_eq_countP_take_of_drop (create_breakpoints ms) _ (k + 1) ?hdrop]
  case hdrop =>
    intro e he hfe
    simp only [decide_eq_true_eq] at hfe
    obtain ⟨hE, hlt⟩ := hfe
    have hrel := rel_of_mem_drop_succ hsort hk he
    rcases hrel with h | ⟨h, _⟩
    · exact absurd (lt_trans h hlt) (lt_irrefl _)
    · rw [h] at hlt
      exact absurd hlt (lt_irrefl _)
  apply List.countP_mono_left
  intro e _ hfe
  simp only [decide_eq_true_eq] at hfe ⊢
  exact hfe.1

/-- The occupancy scan of the sorted breakpoint list of a valid batch succeeds
and records, at each index, the number of `Start` events minus the number of
`End` events of the corresponding prefix. -/
theorem create_stack_count_breakpoints (ms : List Meeting)
    (hval : ∀ x ∈ ms, x.1 < x.2) :
    ∃ sc, create_stack_count (create_breakpoints ms) = some sc ∧
      sc.length = (create_breakpoints ms).length ∧
      ∀ k, k < (create_breakpoints ms).length →
        sc.getD k 0 + countE ((create_breakpoints ms).take (k + 1))
          = countS ((create_breakpoints ms).take (k + 1)) := by
  obtain ⟨sc, h1, h2, h3⟩ := stackCountGo_spec (create_breakpoints ms) 0
    (fun k _ => by simpa using prefix_balance ms hval k)
  exact ⟨sc, h1, h2, fun k hk => by simpa using h3 k hk⟩

/-! ### An instant just below a position -/

/-- All endpoint coordinates of a batch. -/
def coords (ms : List Meeting) : List ℚ := ms.flatMap (fun m => [m.1, m.2])

/-- The largest endpoint coordinate strictly below `p`, or `s` if that is
larger: an instant witnessing the occupancy just before position `p`. -/
def tBelow (ms : List Meeting) (s p : ℚ) : ℚ :=
  ((coords ms).filter (fun c => decide (c < p))).foldl max s

theorem foldl_max_base (l : List ℚ) (b : ℚ) : b ≤ l.foldl max b := by
  induction l generalizing b with
  | nil => exact le_refl b
  | cons c cs ih => exact le_trans (le_max_left b c) (ih (max b c))

theorem foldl_max_mem (l : List ℚ) : ∀ (b : ℚ) {c : ℚ}, c ∈ l → c ≤ l.foldl max b := by
  induction l with
  | nil => exact fun b c hc => absurd hc (List.not_mem_nil c)
  | cons d ds ih =>
    intro b c hc
    rcases List.mem_cons.mp hc with rfl | h
    · exact le_trans (le_max_right b c) (foldl_max_base ds (max b c))
    · exact ih (max b d) h

theorem foldl_max_lt (l : List ℚ) (b p : ℚ) (hb : b < p)
    (hl : ∀ c ∈ l, c < p) : l.foldl max b < p := by
  induction l generalizing b with
  | nil => exact hb
  | cons d ds ih =>
    exact ih (max b d) (max_lt hb (hl d (List.mem_cons_self d ds)))
      (fun c hc => hl c (List.mem_cons_of_mem d hc))

theorem le_tBelow (ms : List Meeting) (s p : ℚ) : s ≤ tBelow ms s p :=
  foldl_max_base _ _

theorem tBelow_lt (ms : List Meeting) (s p : ℚ) (hs : s < p) :
    tBelow ms s p < p := by
  apply foldl_max_lt _ _ _ hs
  intro c hc
  have := List.mem_filter.mp hc
  simpa using this.2

theorem coord_le_tBelow (ms : List Meeting) (s p : ℚ) {c : ℚ}
    (hc : c ∈ coords ms) (hcp : c < p) : c ≤ tBelow ms s p :=
  foldl_max_mem _ _ (List.mem_filter.mpr ⟨hc, by simpa using hcp⟩)

theorem fst_mem_coords {ms : List Meeting} {x : Meeting} (hx : x ∈ ms) :
    x.1 ∈ coords ms := by
  rw [coords, List.mem_flatMap]
  exact ⟨x, hx, by simp⟩

theorem snd_mem_coords {ms : List Meeting} {x : Meeting} (hx : x ∈ ms) :
    x.2 ∈ coords ms := by
  rw [coords, List.mem_flatMap]
  exact ⟨x, hx, by simp⟩

theorem sLT_le_sLE_tBelow (ms : List Meeting) (s p : ℚ) :
    sLT ms p ≤ sLE ms (tBelow ms s p) := by
  apply List.countP_mono_left
  intro x hx h
  simp only [decide_eq_true_eq] at h ⊢
  exact coord_le_tBelow ms s p (fst_mem_coords hx) h

theorem eLE_tBelow_le_eLT (ms : List Meeting) (s p : ℚ) (hsp : s < p) :
    eLE ms (tBelow ms s p) ≤ eLT ms p := by
  apply List.countP_mono_left
  intro x _ h
  simp only [decide_eq_true_eq] at h ⊢
  exact lt_of_le_of_lt h (tBelow_lt ms s p hsp)

/-! ### Occupancy bounds per index -/

theorem sc_le_countAt_of_start (ms : List Meeting) (hval : ∀ x ∈ ms, x.1 < x.2)
    (sc : List ℕ)
    (hform : ∀ j, j < (create_breakpoints ms).length →
      sc.getD j 0 + countE ((create_breakpoints ms).take (j + 1))
        = countS ((create_breakpoints ms).take (j + 1)))
    (k : ℕ) (hk : k < (create_breakpoints ms).length)
    (hcap : ((create_breakpoints ms).getD k bp0).2 = Cap.Start) :
    sc.getD k 0 ≤ countAt ms ((create_breakpoints ms).getD k bp0).1 := by
  have h1 := hform k hk
  have h2 := countS_take_start ms k hk hcap
  have h3 := countE_take_start ms k hk hcap
  have h4 := countAt_add_eLE ms ((create_breakpoints ms).getD k bp0).1 hval
  omega

theorem sc_le_countAt_of_end (ms : List Meeting) (hval : ∀ x ∈ ms, x.1 < x.2)
    (sc : List ℕ)
    (hform : ∀ j, j < (create_breakpoints ms).length →
      sc.getD j 0 + countE ((create_breakpoints ms).take (j + 1))
        = countS ((create_breakpoints ms).take (j + 1)))
    (k : ℕ) (hk : k < (create_breakpoints ms).length)
    (hcap : ((create_breakpoints ms).getD k bp0).2 = Cap.End)
    (s : ℚ) (hs : s < ((create_breakpoints ms).getD k bp0).1) :
    sc.getD k 0 ≤ countAt ms (tBelow ms s ((create_breakpoints ms).getD k bp0).1) := by
  have h1 := hform k hk
  have h2 := countS_take_end ms k hk hcap
  have h3 := countE_take_end ms k hk hcap
  have h4 := sLT_le_sLE_tBelow ms s ((create_breakpoints ms).getD k bp0).1
  have h5 := countAt_add_eLE ms (tBelow ms s ((create_breakpoints ms).getD k bp0).1) hval
  have h6 := eLE_tBelow_le_eLT ms s ((create_breakpoints ms).getD k bp0).1 hs
  omega

/-! ### The index realizing the occupancy at a given instant -/

/-- In a sorted list, taking as many elements as satisfy a downward-closed
predicate yields exactly the satisfying elements. -/
theorem sorted_take_countP (L : List (ℚ × Cap)) (hs : List.Sorted bpR L)
    (q : (ℚ × Cap) → Bool)
    (hq : ∀ a b, bpR a b → q b = true → q a = true) :
    (∀ e ∈ L.take (L.countP q), q e = true) ∧
      (∀ e ∈ L.drop (L.countP q), q e = false) := by
  induction L with
  | nil => exact ⟨fun e he => absurd he (List.not_mem_nil e), fun e he => absurd he (List.not_mem_nil e)⟩
  | cons b bs ih =>
    obtain ⟨hrel, hsorted⟩ := List.pairwise_cons.mp hs
    obtain ⟨ih1, ih2⟩ := ih hsorted
    by_cases hqb : q b = true
    · rw [List.countP_cons_of_pos _ _ hqb, List.take_succ_cons, List.drop_succ_cons]
      refine ⟨?_, ih2⟩
      intro e he
      rcases List.mem_cons.mp he with rfl | h
      · exact hqb
      · exact ih1 e h
    · have hz : bs.countP q = 0 := by
        rw [List.countP_eq_zero]
        intro e he hqe
        exact hqb (hq b e (hrel e he) hqe)
      rw [List.countP_cons_of_neg _ _ hqb, hz]
      refine ⟨fun e he => absurd he (List.not_mem_nil e), ?_⟩
      intro e he
      rcases List.mem_cons.mp he with rfl | h
      · exact Bool.eq_false_iff.mpr hqb
      · exact Bool.eq_false_iff.mpr
          (fun hqe => hqb (hq b e (hrel e h) hqe))

/-- For every instant `t` inside a meeting of a valid batch there is an index
of the occupancy sequence recording exactly the number of meetings in
progress at `t`: the index of the last event with sort key at most
`(t, Start)`. -/
theorem exists_kstar (ms : List Meeting) (hval : ∀ x ∈ ms, x.1 < x.2)
    (m : Meeting) (hm : m ∈ ms) (t : ℚ) (ht1 : m.1 ≤ t)
    (sc : List ℕ)
    (hform : ∀ j, j < (create_breakpoints ms).length →
      sc.getD j 0 + countE ((create_breakpoints ms).take (j + 1))
        = countS ((create_breakpoints ms).take (j + 1))) :
    ∃ ks, ks < (create_breakpoints ms).length ∧
      sc.getD ks 0 = countAt ms t ∧
      ((create_breakpoints ms).getD ks bp0).1 ≤ t ∧
      ∀ j, j < (create_breakpoints ms).length →
        (create_breakpoints ms).getD j bp0 = (m.1, Cap.Start) → j ≤ ks := by
  have hsort := breakpoints_sorted ms
  set q : (ℚ × Cap) → Bool := fun e => decide (bpR e (t, Cap.Start)) with hqdef
  have hq : ∀ a b, bpR a b → q b = true → q a = true := by
    intro a b hab hb
    rw [hqdef] at hb ⊢
    simp only [decide_eq_true_eq] at hb ⊢
    exact IsTrans.trans _ _ _ hab hb
  obtain ⟨htake, hdrop⟩ := sorted_take_countP (create_breakpoints ms) hsort q hq
  have hq_start : ∀ e : ℚ × Cap, e.2 = Cap.Start → (q e = true ↔ e.1 ≤ t) := by
    intro e hS
    rw [hqdef]
    simp only [decide_eq_true_eq]
    constructor
    · rintro (h | ⟨h, _⟩)
      · exact le_of_lt h
      · exact le_of_eq h
    · intro h
      rcases lt_or_eq_of_le h with h | h
      · exact Or.inl h
      · exact Or.inr ⟨h, by simp [hS]⟩
  have hq_end : ∀ e : ℚ × Cap, e.2 = Cap.End → (q e = true ↔ e.1 ≤ t) := by
    intro e hE
    rw [hqdef]
    simp only [decide_eq_true_eq]
    constructor
    · rintro (h | ⟨h, _⟩)
      · exact le_of_lt h
      · exact le_of_eq h
    · intro h
      rcases lt_or_eq_of_le h with h | h
      · exact Or.inl h
      · refine Or.inr ⟨h, ?_⟩
        rw [hE]
        simp [capN]
  have hq_own : q (m.1, Cap.Start) = true := (hq_start (m.1, Cap.Start) rfl).mpr ht1
  have hkq_pos : 0 < (create_breakpoints ms).countP q :=
    List.countP_pos_iff.mpr ⟨(m.1, Cap.Start), own_start_mem ms m hm, hq_own⟩
  have hkq_le : (create_breakpoints ms).countP q ≤ (create_breakpoints ms).length :=
    List.countP_le_length q
  refine ⟨(create_breakpoints ms).countP q - 1, by omega, ?_, ?_, ?_⟩
  · -- the occupancy at the last index of the prefix equals countAt
    have hkq1 : (create_breakpoints ms).countP q - 1 + 1 = (create_breakpoints ms).countP q := by
      omega
    have hS : countS ((create_breakpoints ms).take ((create_breakpoints ms).countP q))
        = sLE ms t := by
      have hcg : countS ((create_breakpoints ms).take ((create_breakpoints ms).countP q))
          = ((create_breakpoints ms).take ((create_breakpoints ms).countP q)).countP
            (fun e => decide (e.2 = Cap.Start ∧ e.1 ≤ t)) := by
        apply List.countP_congr
        intro e he
        simp only [decide_eq_true_eq]
        constructor
        · intro hSe
          exact ⟨hSe, (hq_start e hSe).mp (htake e he)⟩
        · exact fun h => h.1
      rw [hcg, ← countP_bp_startLE ms t]
      symm
      apply countP_eq_countP_take_of_drop
      intro e he hfe
      simp only [decide_eq_true_eq] at hfe
      have := hdrop e he
      rw [Bool.eq_false_iff] at this
      exact this ((hq_start e hfe.1).mpr hfe.2)
    have hE : countE ((create_breakpoints ms).take ((create_breakpoints ms).countP q))
        = eLE ms t := by
      have hcg : countE ((create_breakpoints ms).take ((create_breakpoints ms).countP q))
          = ((create_breakpoints ms).take ((create_breakpoints ms).countP q)).countP
            (fun e => decide (e.2 = Cap.End ∧ e.1 ≤ t)) := by
        apply List.countP_congr
        intro e he
        simp only [decide_eq_true_eq]
        constructor
        · intro hEe
          exact ⟨hEe, (hq_end e hEe).mp (htake e he)⟩
        · exact fun h => h.1
      rw [hcg, ← countP_bp_endLE ms t]
      symm
      apply countP_eq_countP_take_of_drop
      intro e he hfe
      simp only [decide_eq_true_eq] at hfe
      have := hdrop e he
      rw [Bool.eq_false_iff] at this
      exact this ((hq_end e hfe.1).mpr hfe.2)
    have hf := hform ((create_breakpoints ms).countP q - 1) (by omega)
    rw [hkq1] at hf
    have hpart := countAt_add_eLE ms t hval
    omega
  · -- the event at that index has position at most t
    have hmem : (create_breakpoints ms).getD ((create_breakpoints ms).countP q - 1) bp0
        ∈ (create_breakpoints ms).take ((create_breakpoints ms).countP q) :=
      getD_mem_take _ _ (by omega) (by omega)
    have hqe := htake _ hmem
    rw [hqdef] at hqe
    simp only [decide_eq_true_eq] at hqe
    rcases hqe with h | ⟨h, _⟩
    · exact le_of_lt h
    · exact le_of_eq h
  · -- every own-start index is at most ks
    intro j hj hev
    by_contra hc
    push_neg at hc
    have hjge : (create_breakpoints ms).countP q ≤ j := by omega
    have hmem : (create_breakpoints ms).getD j bp0
        ∈ (create_breakpoints ms).drop ((create_breakpoints ms).countP q) :=
      getD_mem_drop _ _ hjge hj
    have := hdrop _ hmem
    rw [hev, hq_own] at this
    exact Bool.noConfusion this

/-! ### Correctness of the per-meeting computation -/

/-- The value computed for a meeting of a valid batch is exactly the maximum,
over all instants `t` of the meeting's half-open span, of the number of
meetings in progress at `t`: it is an upper bound and it is attained. -/
theorem meetingMax_spec (ms : List Meeting) (hval : ∀ x ∈ ms, x.1 < x.2)
    (m : Meeting) (hm : m ∈ ms) (sc : List ℕ)
    (hlen : sc.length = (create_breakpoints ms).length)
    (hform : ∀ j, j < (create_breakpoints ms).length →
      sc.getD j 0 + countE ((create_breakpoints ms).take (j + 1))
        = countS ((create_breakpoints ms).take (j + 1))) :
    ∃ v, meetingMax (create_breakpoints ms) sc ms.length m = some v ∧
      (∀ t, m.1 ≤ t → t < m.2 → countAt ms t ≤ v) ∧
      (∃ t, m.1 ≤ t ∧ t < m.2 ∧ countAt ms t = v) := by
  have hmm : m.1 < m.2 := hval m hm
  have hsort := breakpoints_sorted ms
  obtain ⟨si, j0, hslice, hsi_lt, hsiev, hskip, hsij0, hj0_lt, hj0ev, hbetween⟩ :=
    slice_index_exists ms hval m hm
  have hsisc : si < sc.length := by rw [hlen]; exact hsi_lt
  obtain ⟨v, hmr, hacc, hall, hcase⟩ :=
    maxRange_spec sc si (j0 + 1) (sc.getD si 0) (by omega)
  have hgd : sc.getD si 0 = sc[si] := getD_eq_getElem_of_lt sc 0 hsisc
  have hfirst : sc[si]? = some sc[si] := List.getElem?_eq_getElem hsisc
  have hmr2 : maxRange sc si (j0 + 1) sc[si] = some v := by
    rw [← hgd]
    exact hmr
  have hcomp : meetingMax (create_breakpoints ms) sc ms.length m = some v := by
    simp [meetingMax, hslice, hfirst, hmr2]
  have hupper : ∀ t, m.1 ≤ t → t < m.2 → countAt ms t ≤ v := by
    intro t ht1 ht2
    obtain ⟨ks, hks_lt, hks_eq, hks_pos, hks_ge⟩ :=
      exists_kstar ms hval m hm t ht1 sc hform
    have h_si_ks : si ≤ ks := hks_ge si hsi_lt hsiev
    have h_ks_j0 : ks ≤ j0 := by
      by_contra hc
      push_neg at hc
      have hrel := sorted_getD_rel hsort hc hks_lt
      rw [hj0ev] at hrel
      rcases hrel with h | ⟨h, _⟩
      · exact absurd (lt_of_le_of_lt (le_trans (le_of_lt h) hks_pos) ht2) (lt_irrefl _)
      · exact absurd (lt_of_le_of_lt (le_trans (le_of_eq h) hks_pos) ht2) (lt_irrefl _)
    rw [← hks_eq]
    exact hall ks h_si_ks (by omega)
  refine ⟨v, hcomp, hupper, ?_⟩
  have hex : ∃ k, si ≤ k ∧ k ≤ j0 ∧ v = sc.getD k 0 := by
    rcases hcase with hv | ⟨k, hk1, hk2, hv⟩
    · exact ⟨si, le_refl si, hsij0, hv⟩
    · exact ⟨k, hk1, by omega, hv⟩
  obtain ⟨k, hk1, hk2, hv⟩ := hex
  have hk_lt : k < (create_breakpoints ms).length := by omega
  by_cases hcap : ((create_breakpoints ms).getD k bp0).2 = Cap.Start
  · have hp1 : m.1 ≤ ((create_breakpoints ms).getD k bp0).1 := by
      rcases Nat.eq_or_lt_of_le hk1 with heq | hlt
      · rw [← heq, hsiev]
      · have hrel := sorted_getD_rel hsort hlt hk_lt
        rw [hsiev] at hrel
        rcases hrel with h | ⟨h, _⟩
        · exact le_of_lt h
        · exact le_of_eq h
    have hp2 : ((create_breakpoints ms).getD k bp0).1 < m.2 := by
      have hkj0 : k ≠ j0 := by
        rintro rfl
        rw [hj0ev] at hcap
        exact Cap.noConfusion hcap
      exact hbetween k hk1 (lt_of_le_of_ne hk2 hkj0)
    have hle := sc_le_countAt_of_start ms hval sc hform k hk_lt hcap
    refine ⟨((create_breakpoints ms).getD k bp0).1, hp1, hp2, ?_⟩
    have hub := hupper ((create_breakpoints ms).getD k bp0).1 hp1 hp2
    omega
  · have hcapE : ((create_breakpoints ms).getD k bp0).2 = Cap.End :=
      cap_eq_end_of_ne_start hcap
    have hp1 : m.1 < ((create_breakpoints ms).getD k bp0).1 := by
      have hne : k ≠ si := by
        rintro rfl
        rw [hsiev] at hcapE
        exact Cap.noConfusion hcapE
      have hlt : si < k := lt_of_le_of_ne hk1 (Ne.symm hne)
      have hrel := sorted_getD_rel hsort hlt hk_lt
      rw [hsiev] at hrel
      rcases hrel with h | ⟨h, hcn⟩
      · exact h
      · rw [hcapE] at hcn
        simp [capN] at hcn
    have hp2 : ((create_breakpoints ms).getD k bp0).1 ≤ m.2 := by
      rcases Nat.eq_or_lt_of_le hk2 with heq | hlt
      · rw [heq, hj0ev]
      · exact le_of_lt (hbetween k hk1 hlt)
    have hle := sc_le_countAt_of_end ms hval sc hform k hk_lt hcapE m.1 hp1
    have ht1 : m.1 ≤ tBelow ms m.1 ((create_breakpoints ms).getD k bp0).1 :=
      le_tBelow ms m.1 _
    have ht2 : tBelow ms m.1 ((create_breakpoints ms).getD k bp0).1 < m.2 :=
      lt_of_lt_of_le (tBelow_lt ms m.1 _ hp1) hp2
    refine ⟨tBelow ms m.1 ((create_breakpoints ms).getD k bp0).1, ht1, ht2, ?_⟩
    have hub := hupper (tBelow ms m.1 ((create_breakpoints ms).getD k bp0).1) ht1 ht2
    omega

/-! ### The full solver -/

/-- Default meeting used with `List.getD`. -/
def m0 : Meeting := (0, 0)

theorem solveGo_spec (bps : List (ℚ × Cap)) (sc : List ℕ) (n : ℕ)
    (l : List Meeting)
    (h : ∀ m ∈ l, ∃ v, meetingMax bps sc n m = some v) :
    ∃ rs, solveGo bps sc n l = some rs ∧ rs.length = l.length ∧
      ∀ i, i < l.length →
        meetingMax bps sc n (l.getD i m0) = some (rs.getD i 0) := by
  induction l with
  | nil => exact ⟨[], rfl, rfl, fun i hi => absurd hi (Nat.not_lt_zero i)⟩
  | cons m rest ih =>
    obtain ⟨v, hv⟩ := h m (List.mem_cons_self m rest)
    obtain ⟨rs, hrs, hlen, hall⟩ := ih (fun x hx => h x (List.mem_cons_of_mem m hx))
    refine ⟨v :: rs, ?_, by simp [hlen], ?_⟩
    · simp [solveGo, hv, hrs]
    · intro i hi
      cases i with
      | zero => simpa using hv
      | succ i' =>
        simp only [List.getD_cons_succ]
        exact hall i' (by simp [List.length_cons] at hi; omega)

/-- Main correctness statement, quantified over indices: on a valid batch the
solver succeeds, preserves the length, and each result value is exactly the
maximum number of simultaneous meetings over the corresponding meeting's
half-open span (upper bound and attained). -/
theorem solve_max_overlap_correct (ms : List Meeting)
    (hval : ∀ x ∈ ms, x.1 < x.2) :
    ∃ rs, solve_max_overlap ms = some rs ∧ rs.length = ms.length ∧
      ∀ i, i < ms.length →
        (∀ t, (ms.getD i m0).1 ≤ t → t < (ms.getD i m0).2 →
          countAt ms t ≤ rs.getD i 0) ∧
        (∃ t, (ms.getD i m0).1 ≤ t ∧ t < (ms.getD i m0).2 ∧
          countAt ms t = rs.getD i 0) := by
  have hv : is_valid ms = true := by
    rw [is_valid, List.all_eq_true]
    intro m hm
    simpa using hval m hm
  obtain ⟨sc, hsc, hlen, hform⟩ := create_stack_count_breakpoints ms hval
  obtain ⟨rs, hrs, hrl, hall⟩ := solveGo_spec (create_breakpoints ms) sc ms.length ms
    (fun m hm => by
      obtain ⟨v, h1, _, _⟩ := meetingMax_spec ms hval m hm sc hlen hform
      exact ⟨v, h1⟩)
  refine ⟨rs, ?_, hrl, ?_⟩
  · simp [solve_max_overlap, hv, hsc, hrs]
  · intro i hi
    have hmem : ms.getD i m0 ∈ ms := getD_mem_of_lt ms m0 hi
    obtain ⟨v, hvm, hupper, hatt⟩ :=
      meetingMax_spec ms hval (ms.getD i m0) hmem sc hlen hform
    have hvi := hall i hi
    rw [hvm] at hvi
    have hveq : v = rs.getD i 0 := Option.some.inj hvi
    rw [← hveq]
    exact ⟨hupper, hatt⟩

/-! ### Uniqueness of the per-meeting value, and permutation machinery -/

/-- Two values that are both attained upper bounds of the occupancy over the
same span (with pointwise equal occupancy functions) coincide. -/
theorem max_value_unique {ms ms2 : List Meeting} {x : Meeting} {v w : ℕ}
    (hcnt : ∀ t, countAt ms t = countAt ms2 t)
    (hu1 : ∀ t, x.1 ≤ t → t < x.2 → countAt ms t ≤ v)
    (ha1 : ∃ t, x.1 ≤ t ∧ t < x.2 ∧ countAt ms t = v)
    (hu2 : ∀ t, x.1 ≤ t → t < x.2 → countAt ms2 t ≤ w)
    (ha2 : ∃ t, x.1 ≤ t ∧ t < x.2 ∧ countAt ms2 t = w) : v = w := by
  obtain ⟨t1, h11, h12, h13⟩ := ha1
  obtain ⟨t2, h21, h22, h23⟩ := ha2
  have hvw : v ≤ w := by
    rw [← h13, hcnt t1]
    exact hu2 t1 h11 h12
  have hwv : w ≤ v := by
    rw [← h23, ← hcnt t2]
    exact hu1 t2 h21 h22
  omega

/-- The value the program computes for meeting `x` against batch `ms`,
as a total function (0 on any failure); used to express that each output
entry is a function of its meeting and the batch. -/
def mval (ms : List Meeting) (x : Meeting) : ℕ :=
  ((create_stack_count (create_breakpoints ms)).bind
    (fun sc => meetingMax (create_breakpoints ms) sc ms.length x)).getD 0

theorem mval_spec (ms : List Meeting) (hval : ∀ x ∈ ms, x.1 < x.2)
    (x : Meeting) (hx : x ∈ ms) :
    (∀ t, x.1 ≤ t → t < x.2 → countAt ms t ≤ mval ms x) ∧
    (∃ t, x.1 ≤ t ∧ t < x.2 ∧ countAt ms t = mval ms x) := by
  obtain ⟨sc, hsc, hl, hf⟩ := create_stack_count_breakpoints ms hval
  obtain ⟨v, hvm, hu, ha⟩ := meetingMax_spec ms hval x hx sc hl hf
  have hm : mval ms x = v := by
    rw [mval, hsc]
    simp [hvm]
  rw [hm]
  exact ⟨hu, ha⟩

theorem zip_map_self {α β : Type} (f : α → β) (l : List α) :
    l.zip (l.map f) = l.map (fun x => (x, f x)) := by
  induction l with
  | nil => rfl
  | cons a l ih => simp [ih]

/-- The result list of the solver is the pointwise image of the input under
`mval`. -/
theorem solve_eq_map_mval (ms : List Meeting) (hval : ∀ x ∈ ms, x.1 < x.2)
    {rs : List ℕ} (hrs : solve_max_overlap ms = some rs) :
    rs = ms.map (mval ms) := by
  obtain ⟨rs', hrs', hlen, hall⟩ := solve_max_overlap_correct ms hval
  rw [hrs] at hrs'
  obtain rfl : rs = rs' := Option.some.inj hrs'
  apply List.ext_getElem (by simp [hlen])
  intro i h1 h2
  have hi : i < ms.length := by simpa using h2
  have hx := getD_mem_of_lt ms m0 hi
  obtain ⟨hu1, ha1⟩ := hall i hi
  obtain ⟨hu2, ha2⟩ := mval_spec ms hval _ hx
  have heq : rs.getD i 0 = mval ms (ms.getD i m0) :=
    max_value_unique (fun t => rfl) hu1 ha1 hu2 ha2
  rw [List.getElem_map, ← getD_eq_getElem_of_lt rs 0 h1,
    ← getD_eq_getElem_of_lt ms m0 hi]
  exact heq

theorem countS_append (l1 l2 : List (ℚ × Cap)) :
    countS (l1 ++ l2) = countS l1 + countS l2 := by
  simp [countS, List.countP_append]

theorem countE_append (l1 l2 : List (ℚ × Cap)) :
    countE (l1 ++ l2) = countE l1 + countE l2 := by
  simp [countE, List.countP_append]

/-- On a two-meeting batch whose occupancy is constantly 1 on each meeting's
span, the solver answers `[1, 1]`. -/
theorem solve_pair_ones (x y : Meeting) (hx : x.1 < x.2) (hy : y.1 < y.2)
    (hcx : ∀ t, x.1 ≤ t → t < x.2 → countAt [x, y] t = 1)
    (hcy : ∀ t, y.1 ≤ t → t < y.2 → countAt [x, y] t = 1) :
    solve_max_overlap [x, y] = some [1, 1] := by
  have hval : ∀ z ∈ [x, y], z.1 < z.2 := by
    intro z hz
    rcases List.mem_cons.mp hz with rfl | hz2
    · exact hx
    · rcases List.mem_cons.mp hz2 with rfl | hz3
      · exact hy
      · exact absurd hz3 (List.not_mem_nil z)
  obtain ⟨rs, hrs, hlen, hall⟩ := solve_max_overlap_correct [x, y] hval
  have hl2 : rs.length = 2 := by simpa using hlen
  obtain ⟨r0, r1, rfl⟩ : ∃ r0 r1, rs = [r0, r1] := by
    match rs, hl2 with
    | [r0, r1], _ => exact ⟨r0, r1, rfl⟩
  obtain ⟨_, t0, ht01, ht02, ht0c⟩ := hall 0 (by simp)
  obtain ⟨_, t1, ht11, ht12, ht1c⟩ := hall 1 (by simp)
  simp only [List.getD_cons_zero, List.getD_cons_succ] at ht01 ht02 ht0c ht11 ht12 ht1c
  have e0 : r0 = 1 := by
    have hc := hcx t0 ht01 ht02
    rw [ht0c] at hc
    exact hc
  have e1 : r1 = 1 := by
    have hc := hcy t1 ht11 ht12
    rw [ht1c] at hc
    exact hc
  rw [hrs, e0, e1]

/-! ### The claims -/

/-- Claim C1: for every valid input (each interval with start strictly below
end), `solve_max_overlap` returns a sequence of the input's length whose entry
at each index equals the maximum, over all instants `t` of that interval's
half-open span, of the number of input intervals containing `t` under
half-open semantics (the maximum is both an upper bound and attained). -/
theorem C1_solve_max_overlap_exact (ms : List Meeting)
    (hval : ∀ x ∈ ms, x.1 < x.2) :
    ∃ rs, solve_max_overlap ms = some rs ∧ rs.length = ms.length ∧
      ∀ i, i < ms.length →
        (∀ t, (ms.getD i m0).1 ≤ t → t < (ms.getD i m0).2 →
          countAt ms t ≤ rs.getD i 0) ∧
        (∃ t, (ms.getD i m0).1 ≤ t ∧ t < (ms.getD i m0).2 ∧
          countAt ms t = rs.getD i 0) :=
  solve_max_overlap_correct ms hval

/-- Witness for C1 at the batch `[(1, 3), (2, 5)]`. -/
theorem C1_witness :
    ∃ rs, solve_max_overlap [((1:ℚ), 3), ((2:ℚ), 5)] = some rs ∧
      rs.length = [((1:ℚ), 3), ((2:ℚ), 5)].length ∧
      ∀ i, i < [((1:ℚ), 3), ((2:ℚ), 5)].length →
        (∀ t, ([((1:ℚ), 3), ((2:ℚ), 5)].getD i m0).1 ≤ t →
          t < ([((1:ℚ), 3), ((2:ℚ), 5)].getD i m0).2 →
          countAt [((1:ℚ), 3), ((2:ℚ), 5)] t ≤ rs.getD i 0) ∧
        (∃ t, ([((1:ℚ), 3), ((2:ℚ), 5)].getD i m0).1 ≤ t ∧
          t < ([((1:ℚ), 3), ((2:ℚ), 5)].getD i m0).2 ∧
          countAt [((1:ℚ), 3), ((2:ℚ), 5)] t = rs.getD i 0) :=
  C1_solve_max_overlap_exact [((1:ℚ), 3), ((2:ℚ), 5)] (by decide)

/-- Claim C2: the solver fails (returns no result) exactly when some interval
has start at or above end; on fully valid input the validation passes and a
result sequence is produced. -/
theorem C2_validation (ms : List Meeting) :
    (solve_max_overlap ms = none ↔ ∃ m ∈ ms, m.2 ≤ m.1) ∧
    ((∀ x ∈ ms, x.1 < x.2) →
      is_valid ms = true ∧ ∃ rs, solve_max_overlap ms = some rs) := by
  constructor
  · constructor
    · intro hn
      by_contra hc
      push_neg at hc
      have hval : ∀ x ∈ ms, x.1 < x.2 := hc
      obtain ⟨rs, hrs, _, _⟩ := solve_max_overlap_correct ms hval
      rw [hrs] at hn
      exact Option.noConfusion hn
    · rintro ⟨m, hm, hmle⟩
      have hv : is_valid ms = false := by
        rw [is_valid]
        exact List.all_eq_false.mpr ⟨m, hm, by simpa using not_lt.mpr hmle⟩
      simp [solve_max_overlap, hv]
  · intro hval
    have hv : is_valid ms = true := by
      rw [is_valid, List.all_eq_true]
      intro m hm
      simpa using hval m hm
    obtain ⟨rs, hrs, _, _⟩ := solve_max_overlap_correct ms hval
    exact ⟨hv, rs, hrs⟩

/-- Claim C3: on a valid batch, for each of its meetings `slice_index`
returns `(start_index, end_index)` where `start_index` is the first index
whose event is strictly past the meeting's start or a `Start` exactly at it,
`end_index` is one plus the first index from `start_index` on whose event
position is at or past the meeting's end, and `end_index` is at most `2n`. -/
theorem C3_slice_index_spec (ms : List Meeting) (hval : ∀ x ∈ ms, x.1 < x.2)
    (m : Meeting) (hm : m ∈ ms) :
    ∃ si ei, slice_index m (create_breakpoints ms) ms.length = some (si, ei) ∧
      si < 2 * ms.length ∧
      (m.1 < ((create_breakpoints ms).getD si bp0).1 ∨
        (((create_breakpoints ms).getD si bp0).1 = m.1 ∧
          ((create_breakpoints ms).getD si bp0).2 = Cap.Start)) ∧
      (∀ k, k < si →
        ¬(m.1 < ((create_breakpoints ms).getD k bp0).1 ∨
          (((create_breakpoints ms).getD k bp0).1 = m.1 ∧
            ((create_breakpoints ms).getD k bp0).2 = Cap.Start))) ∧
      (∃ j0, ei = j0 + 1 ∧ si ≤ j0 ∧
        m.2 ≤ ((create_breakpoints ms).getD j0 bp0).1 ∧
        (∀ k, si ≤ k → k < j0 → ((create_breakpoints ms).getD k bp0).1 < m.2)) ∧
      ei ≤ 2 * ms.length := by
  obtain ⟨si, j0, hslice, hsi_lt, hsiev, hskip, hsij0, hj0_lt, hj0ev, hbetween⟩ :=
    slice_index_exists ms hval m hm
  have hn2 := length_breakpoints ms
  refine ⟨si, j0 + 1, hslice, by omega, ?_, ?_, ⟨j0, rfl, hsij0, ?_, hbetween⟩, by omega⟩
  · right
    rw [hsiev]
    exact ⟨rfl, rfl⟩
  · intro k hk hcond
    have hf := (skipCond_false_iff m.1 ((create_breakpoints ms).getD k bp0)).mpr hcond
    rw [hskip k hk] at hf
    exact Bool.noConfusion hf
  · rw [hj0ev]

/-- Witness for C3 at the batch `[(1, 3), (2, 5)]` and its meeting `(2, 5)`. -/
theorem C3_witness :
    ∃ si ei, slice_index ((2:ℚ), (5:ℚ))
        (create_breakpoints [((1:ℚ), 3), ((2:ℚ), 5)]) 2 = some (si, ei) ∧
      si < 2 * 2 ∧
      (2 < ((create_breakpoints [((1:ℚ), 3), ((2:ℚ), 5)]).getD si bp0).1 ∨
        (((create_breakpoints [((1:ℚ), 3), ((2:ℚ), 5)]).getD si bp0).1 = 2 ∧
          ((create_breakpoints [((1:ℚ), 3), ((2:ℚ), 5)]).getD si bp0).2 = Cap.Start)) ∧
      (∀ k, k < si →
        ¬(2 < ((create_breakpoints [((1:ℚ), 3), ((2:ℚ), 5)]).getD k bp0).1 ∨
          (((create_breakpoints [((1:ℚ), 3), ((2:ℚ), 5)]).getD k bp0).1 = 2 ∧
            ((create_breakpoints [((1:ℚ), 3), ((2:ℚ), 5)]).getD k bp0).2 = Cap.Start))) ∧
      (∃ j0, ei = j0 + 1 ∧ si ≤ j0 ∧
        5 ≤ ((create_breakpoints [((1:ℚ), 3), ((2:ℚ), 5)]).getD j0 bp0).1 ∧
        (∀ k, si ≤ k → k < j0 →
          ((create_breakpoints [((1:ℚ), 3), ((2:ℚ), 5)]).getD k bp0).1 < 5)) ∧
      ei ≤ 2 * 2 :=
  C3_slice_index_spec [((1:ℚ), 3), ((2:ℚ), 5)] (by decide) ((2:ℚ), (5:ℚ)) (by decide)

/-- Claim C4: two intervals sharing only a boundary point, given in either
order as the whole input, each get maximum overlap 1. -/
theorem C4_boundary_touch (a b c : ℚ) (h1 : a < b) (h2 : b < c) :
    solve_max_overlap [(a, b), (b, c)] = some [1, 1] ∧
      solve_max_overlap [(b, c), (a, b)] = some [1, 1] := by
  constructor
  · apply solve_pair_ones (a, b) (b, c) h1 h2
    · intro t ht1 ht2
      have hnb : ¬ b ≤ t := not_le.mpr ht2
      simp [countAt, List.countP_cons, ht1, ht2, hnb]
    · intro t ht1 ht2
      have hnb : ¬ t < b := not_lt.mpr ht1
      simp [countAt, List.countP_cons, ht1, ht2, hnb]
  · apply solve_pair_ones (b, c) (a, b) h2 h1
    · intro t ht1 ht2
      have hnb : ¬ t < b := not_lt.mpr ht1
      simp [countAt, List.countP_cons, ht1, ht2, hnb]
    · intro t ht1 ht2
      have hnb : ¬ b ≤ t := not_le.mpr ht2
      simp [countAt, List.countP_cons, ht1, ht2, hnb]

/-- Witness for C4: the concrete batches `[(1, 3), (3, 5)]` and
`[(3, 5), (1, 3)]` both yield `[1, 1]`. -/
theorem C4_witness :
    solve_max_overlap [((1:ℚ), 3), ((3:ℚ), 5)] = some [1, 1] ∧
      solve_max_overlap [((3:ℚ), 5), ((1:ℚ), 3)] = some [1, 1] :=
  C4_boundary_touch 1 3 5 (by norm_num) (by norm_num)

/-- Claim C5: on a valid batch every result value is at least 1; moreover
for each meeting the event located at `start_index` is a `Start` (at the
meeting's own start) and the occupancy recorded there is already at least 1. -/
theorem C5_lower_bound (ms : List Meeting) (hval : ∀ x ∈ ms, x.1 < x.2) :
    ∃ rs, solve_max_overlap ms = some rs ∧
      (∀ i, i < rs.length → 1 ≤ rs.getD i 0) ∧
      ∃ sc, create_stack_count (create_breakpoints ms) = some sc ∧
        ∀ m ∈ ms, ∃ si ei,
          slice_index m (create_breakpoints ms) ms.length = some (si, ei) ∧
          (create_breakpoints ms).getD si bp0 = (m.1, Cap.Start) ∧
          1 ≤ sc.getD si 0 := by
  obtain ⟨rs, hrs, hlen, hall⟩ := solve_max_overlap_correct ms hval
  obtain ⟨sc, hsc, hscl, hform⟩ := create_stack_count_breakpoints ms hval
  refine ⟨rs, hrs, ?_, sc, hsc, ?_⟩
  · intro i hi
    rw [hlen] at hi
    obtain ⟨_, t, ht1, ht2, htc⟩ := hall i hi
    have hmem := getD_mem_of_lt ms m0 hi
    have hpos : 0 < countAt ms t := by
      rw [countAt]
      exact List.countP_pos_iff.mpr ⟨ms.getD i m0, hmem, by
        simp only [decide_eq_true_eq]
        exact ⟨ht1, ht2⟩⟩
    rw [htc] at hpos
    exact hpos
  · intro m hm
    obtain ⟨si, j0, hslice, hsi_lt, hsiev, _, _, _, _, _⟩ :=
      slice_index_exists ms hval m hm
    refine ⟨si, j0 + 1, hslice, hsiev, ?_⟩
    have hf := hform si hsi_lt
    have htk : (create_breakpoints ms).take (si + 1)
        = (create_breakpoints ms).take si ++ [(m.1, Cap.Start)] := by
      rw [List.take_succ, List.getElem?_eq_getElem hsi_lt]
      have hg : (create_breakpoints ms)[si] = (m.1, Cap.Start) := by
        rw [← getD_eq_getElem_of_lt _ bp0 hsi_lt]
        exact hsiev
      rw [hg]
      rfl
    have hpb := prefix_balance ms hval si
    rw [htk, countE_append, countS_append] at hf
    have h1 : countE [(m.1, Cap.Start)] = 0 := by simp [countE]
    have h2 : countS [(m.1, Cap.Start)] = 1 := by simp [countS]
    rw [h1, h2] at hf
    omega

/-- Witness for C5 at the batch `[(1, 3), (2, 5)]`. -/
theorem C5_witness :
    ∃ rs, solve_max_overlap [((1:ℚ), 3), ((2:ℚ), 5)] = some rs ∧
      (∀ i, i < rs.length → 1 ≤ rs.getD i 0) ∧
      ∃ sc, create_stack_count (create_breakpoints [((1:ℚ), 3), ((2:ℚ), 5)]) = some sc ∧
        ∀ m ∈ [((1:ℚ), 3), ((2:ℚ), 5)], ∃ si ei,
          slice_index m (create_breakpoints [((1:ℚ), 3), ((2:ℚ), 5)]) 2 = some (si, ei) ∧
          (create_breakpoints [((1:ℚ), 3), ((2:ℚ), 5)]).getD si bp0 = (m.1, Cap.Start) ∧
          1 ≤ sc.getD si 0 :=
  C5_lower_bound [((1:ℚ), 3), ((2:ℚ), 5)] (by decide)

/-- Claim C6: on a valid batch, every prefix of the sorted event list has at
least as many `Start` as `End` events, so the occupancy scan never decrements
a zero counter and succeeds (all its values being naturals, hence at least 0). -/
theorem C6_counter_no_underflow (ms : List Meeting)
    (hval : ∀ x ∈ ms, x.1 < x.2) :
    (∀ k, countE ((create_breakpoints ms).take k)
      ≤ countS ((create_breakpoints ms).take k)) ∧
    ∃ sc, create_stack_count (create_breakpoints ms) = some sc ∧
      sc.length = (create_breakpoints ms).length := by
  refine ⟨prefix_balance ms hval, ?_⟩
  obtain ⟨sc, h1, h2, _⟩ := create_stack_count_breakpoints ms hval
  exact ⟨sc, h1, h2⟩

/-- Witness for C6 at the batch `[(1, 3), (2, 5)]`. -/
theorem C6_witness :
    (∀ k, countE ((create_breakpoints [((1:ℚ), 3), ((2:ℚ), 5)]).take k)
      ≤ countS ((create_breakpoints [((1:ℚ), 3), ((2:ℚ), 5)]).take k)) ∧
    ∃ sc, create_stack_count (create_breakpoints [((1:ℚ), 3), ((2:ℚ), 5)]) = some sc ∧
      sc.length = (create_breakpoints [((1:ℚ), 3), ((2:ℚ), 5)]).length :=
  C6_counter_no_underflow [((1:ℚ), 3), ((2:ℚ), 5)] (by decide)

/-- Claim C7: `create_breakpoints` returns exactly `2n` events, a permutation
of one `Start` per interval start plus one `End` per interval end, sorted by
position with every `End` before every `Start` at equal positions. -/
theorem C7_breakpoints_sorted_perm (ms : List Meeting) :
    (create_breakpoints ms).length = 2 * ms.length ∧
    (create_breakpoints ms).Perm
      (ms.flatMap (fun m => [(m.1, Cap.Start), (m.2, Cap.End)])) ∧
    (create_breakpoints ms).Pairwise (fun a b => a.1 < b.1 ∨
      (a.1 = b.1 ∧ (a.2 = Cap.End ∨ b.2 = Cap.Start))) := by
  refine ⟨length_breakpoints ms, breakpoints_perm ms, ?_⟩
  apply List.Pairwise.imp ?_ (breakpoints_sorted ms)
  intro a b hab
  rcases hab with h | ⟨h, hc⟩
  · exact Or.inl h
  · refine Or.inr ⟨h, ?_⟩
    cases ha : a.2
    · exact Or.inl rfl
    · cases hb : b.2
      · rw [ha, hb] at hc
        simp [capN] at hc
      · exact Or.inr rfl

/-- Counterexample for C8 as stated: on the event sequence consisting of a
single `End` event the scan decrements the zero counter, so no output
sequence is produced at all. -/
theorem C8_counterexample :
    ¬ ∃ sc, create_stack_count [((0:ℚ), Cap.End)] = some sc ∧ sc.length = 1 := by
  rintro ⟨sc, h, _⟩
  have hn : create_stack_count [((0:ℚ), Cap.End)] = none := rfl
  rw [hn] at h
  exact Option.noConfusion h

/-- Claim C8 (amended): for every event sequence in which each prefix has at
least as many `Start` as `End` events, `create_stack_count` returns a
sequence of the same length whose entry at each index `i` is the number of
`Start` events minus the number of `End` events among indices 0 through `i`
(stated additively to keep the subtraction over the naturals exact). -/
theorem C8_stack_count_amended (l : List (ℚ × Cap))
    (h : ∀ k, k ≤ l.length → countE (l.take k) ≤ countS (l.take k)) :
    ∃ sc, create_stack_count l = some sc ∧ sc.length = l.length ∧
      ∀ k, k < l.length →
        sc.getD k 0 + countE (l.take (k + 1)) = countS (l.take (k + 1)) := by
  obtain ⟨sc, h1, h2, h3⟩ := stackCountGo_spec l 0 (fun k hk => by simpa using h k hk)
  exact ⟨sc, h1, h2, fun k hk => by simpa using h3 k hk⟩

/-- Witness for C8 (amended) at the event list `[(0, Start), (1, End)]`. -/
theorem C8_witness :
    ∃ sc, create_stack_count [((0:ℚ), Cap.Start), ((1:ℚ), Cap.End)] = some sc ∧
      sc.length = [((0:ℚ), Cap.Start), ((1:ℚ), Cap.End)].length ∧
      ∀ k, k < [((0:ℚ), Cap.Start), ((1:ℚ), Cap.End)].length →
        sc.getD k 0 + countE ([((0:ℚ), Cap.Start), ((1:ℚ), Cap.End)].take (k + 1))
          = countS ([((0:ℚ), Cap.Start), ((1:ℚ), Cap.End)].take (k + 1)) :=
  C8_stack_count_amended [((0:ℚ), Cap.Start), ((1:ℚ), Cap.End)] (by decide)

/-- Claim C9: permuting a valid input batch permutes the output with it:
the multiset of (meeting, value) pairs is preserved, hence also the multiset
of output values. -/
theorem C9_permutation (ms ms2 : List Meeting) (hperm : ms.Perm ms2)
    (hval : ∀ x ∈ ms, x.1 < x.2) :
    ∃ rs rs2, solve_max_overlap ms = some rs ∧ solve_max_overlap ms2 = some rs2 ∧
      (ms.zip rs).Perm (ms2.zip rs2) ∧ rs.Perm rs2 := by
  have hval2 : ∀ x ∈ ms2, x.1 < x.2 := fun x hx => hval x (hperm.mem_iff.mpr hx)
  obtain ⟨rs, hrs, _, _⟩ := solve_max_overlap_correct ms hval
  obtain ⟨rs2, hrs2, _, _⟩ := solve_max_overlap_correct ms2 hval2
  have hmap : rs = ms.map (mval ms) := solve_eq_map_mval ms hval hrs
  have hmap2 : rs2 = ms2.map (mval ms2) := solve_eq_map_mval ms2 hval2 hrs2
  have hcongr : ms2.map (mval ms2) = ms2.map (mval ms) := by
    apply List.map_congr_left
    intro x hx
    obtain ⟨hu1, ha1⟩ := mval_spec ms2 hval2 x hx
    obtain ⟨hu2, ha2⟩ := mval_spec ms hval x (hperm.mem_iff.mpr hx)
    exact max_value_unique (fun t => (hperm.countP_eq _).symm) hu1 ha1 hu2 ha2
  have hmap2' : rs2 = ms2.map (mval ms) := hmap2.trans hcongr
  refine ⟨rs, rs2, hrs, hrs2, ?_, ?_⟩
  · rw [hmap, hmap2', zip_map_self, zip_map_self]
    exact hperm.map _
  · rw [hmap, hmap2']
    exact hperm.map _

/-- Witness for C9 at the batch `[(1, 3), (2, 5)]` and its reversal. -/
theorem C9_witness :
    ∃ rs rs2, solve_max_overlap [((1:ℚ), 3), ((2:ℚ), 5)] = some rs ∧
      solve_max_overlap [((2:ℚ), 5), ((1:ℚ), 3)] = some rs2 ∧
      (([((1:ℚ), 3), ((2:ℚ), 5)] : List Meeting).zip rs).Perm
        (([((2:ℚ), 5), ((1:ℚ), 3)] : List Meeting).zip rs2) ∧
      rs.Perm rs2 :=
  C9_permutation [((1:ℚ), 3), ((2:ℚ), 5)] [((2:ℚ), 5), ((1:ℚ), 3)]
    (List.Perm.swap _ _ _) (by decide)

/-- Claim C10: on a validated batch no array access goes out of bounds: the
solver succeeds, and for each meeting `slice_index` yields
`start_index < 2n` and `end_index ≤ 2n` (so the max-reduction touches only
indices below `2n`, and the two searches stop within bounds). -/
theorem C10_in_bounds (ms : List Meeting) (hval : ∀ x ∈ ms, x.1 < x.2) :
    (∃ rs, solve_max_overlap ms = some rs) ∧
    ∀ m ∈ ms, ∃ si ei,
      slice_index m (create_breakpoints ms) ms.length = some (si, ei) ∧
      si < 2 * ms.length ∧ si < ei ∧ ei ≤ 2 * ms.length := by
  obtain ⟨rs, hrs, _, _⟩ := solve_max_overlap_correct ms hval
  refine ⟨⟨rs, hrs⟩, ?_⟩
  intro m hm
  obtain ⟨si, j0, hslice, hsi_lt, _, _, hsij0, hj0_lt, _, _⟩ :=
    slice_index_exists ms hval m hm
  have hn2 := length_breakpoints ms
  exact ⟨si, j0 + 1, hslice, by omega, by omega, by omega⟩

/-- Witness for C10 at the batch `[(1, 3), (2, 5)]`. -/
theorem C10_witness :
    (∃ rs, solve_max_overlap [((1:ℚ), 3), ((2:ℚ), 5)] = some rs) ∧
    ∀ m ∈ [((1:ℚ), 3), ((2:ℚ), 5)], ∃ si ei,
      slice_index m (create_breakpoints [((1:ℚ), 3), ((2:ℚ), 5)]) 2 = some (si, ei) ∧
      si < 2 * 2 ∧ si < ei ∧ ei ≤ 2 * 2 :=
  C10_in_bounds [((1:ℚ), 3), ((2:ℚ), 5)] (by decide)

/-! ### Sanity checks mirroring the source's test-suite -/

example : solve_max_overlap [((1:ℚ), 3), (4, 6), (5, 9), (10, 12)] =
    some [1, 2, 2, 1] := by decide

example : solve_max_overlap [((1:ℚ), 3), (3, 5)] = some [1, 1] := by decide

example : solve_max_overlap [((3:ℚ), 1), (5, 6)] = none := by decide

example : solve_max_overlap [((1:ℚ), 9), (1, 2), (1, 3), (6, 7)] =
    some [3, 3, 3, 2] := by decide
